import Mathlib

/-
Verification of the mirascrape real-estate scraper against its specification.

The development shallowly embeds the pure cores of the repository:
  * src/models.py           — the canonical Property record and its id validator
  * src/scrapers/idealista.py — JS-literal coercion, feature parsing, category
    guessing, gallery extraction, coordinate extraction, enrichment merge,
    retry policy, HTML list-page pagination loop
  * src/scrapers/spain_real_estate.py — price parsing, category guessing,
    coordinate extraction, fetch retry loop, listing orchestration
  * src/cli.py              — the resumable enrich pass

Machine floats are modelled as rationals (ℚ); Python string functions and the
regular expressions used by the code are reimplemented with the exact matching
semantics the code relies on.  DOM queries (selectolax) and HTTP transports are
external collaborators: their results enter the embedded functions as explicit
arguments (oracles), exactly at the boundary where the Python code receives
them.
-/

set_option autoImplicit false
set_option maxRecDepth 2000

namespace Mirascrape

/-! ## Python string semantics -/

/-- ASCII lower-casing of a character, as done by `str.lower` on ASCII input
(non-ASCII characters are left unchanged in this model; all keyword tables in
the repository are ASCII or already lower-case). -/
def asciiLower (c : Char) : Char :=
  if 'A' ≤ c ∧ c ≤ 'Z' then Char.ofNat (c.toNat + 32) else c

/-- Lower-case every character of a string (model of `str.lower`). -/
def lowerStr (s : String) : String :=
  String.mk (s.data.map asciiLower)

/-- Check whether `needle` is a prefix of `text` (character lists). -/
def startsWithChars : List Char → List Char → Bool
  | [], _ => true
  | _ :: _, [] => false
  | n :: ns, c :: cs => n == c && startsWithChars ns cs

/-- Check whether `needle` occurs as a contiguous substring (model of the
Python `in` operator on strings). -/
def hasSubstrChars (needle : List Char) : List Char → Bool
  | [] => needle.isEmpty
  | c :: cs => startsWithChars needle (c :: cs) || hasSubstrChars needle cs

/-- Python `needle in hay` on strings. -/
def strContainsSub (hay needle : String) : Bool :=
  hasSubstrChars needle.data hay.data

/-- Model of `str.replace(c, "")` for a one-character pattern: delete every
occurrence of the character. -/
def removeAllChar (c : Char) (cs : List Char) : List Char :=
  cs.filter (fun d => d ≠ c)

/-- Characters Python treats as whitespace in `str.strip` and `float`:
ASCII whitespace, the C1 separators, NBSP, and the Unicode space separators
(including the narrow no-break space U+202F). -/
def pyIsSpace (c : Char) : Bool :=
  c == ' ' || c == '\t' || c == '\n' || c == '\r' || c == '\x0b' || c == '\x0c' ||
  c == '\x1c' || c == '\x1d' || c == '\x1e' || c == '\x1f' || c == '\x85' ||
  c == ' ' || c == ' ' ||
  (' ' ≤ c && c ≤ ' ') ||
  c == ' ' || c == ' ' || c == ' ' || c == ' ' || c == '　'

/-- Model of `str.strip()`: drop Python whitespace at both ends. -/
def stripWsChars (cs : List Char) : List Char :=
  ((cs.dropWhile pyIsSpace).reverse.dropWhile pyIsSpace).reverse

/-- Numeric value of a digit string (most significant first). -/
def digitsToNat (ds : List Char) : Nat :=
  ds.foldl (fun n c => n * 10 + (c.toNat - 48)) 0

/-- Model of Python `float(s)` on decimal literals: optional surrounding
whitespace, optional sign, integer and/or fractional digits, optional
exponent.  The special forms `inf`/`nan` and digit-separating underscores are
outside the modelled domain (none of the verified claims involve them); the
result is an exact rational. -/
def pythonFloatMag (cs1 : List Char) : Option Rat :=
  let ip := cs1.takeWhile Char.isDigit
  let r1 := cs1.dropWhile Char.isDigit
  let fracRest : List Char × List Char :=
    match r1 with
    | '.' :: r => (r.takeWhile Char.isDigit, r.dropWhile Char.isDigit)
    | r => ([], r)
  let fp := fracRest.1
  let r2 := fracRest.2
  if ip = [] ∧ fp = [] then none
  else
    let mag : Rat := (digitsToNat ip : Rat) + (digitsToNat fp : Rat) / ((10 : Rat) ^ fp.length)
    match r2 with
    | [] => some mag
    | e :: r3 =>
      if e = 'e' ∨ e = 'E' then
        let esign : Bool × List Char :=
          match r3 with
          | '+' :: r => (false, r)
          | '-' :: r => (true, r)
          | r => (false, r)
        let ed := esign.2.takeWhile Char.isDigit
        let r5 := esign.2.dropWhile Char.isDigit
        if ed = [] ∨ r5 ≠ [] then none
        else
          some (if esign.1 then mag / (10 : Rat) ^ digitsToNat ed
                else mag * (10 : Rat) ^ digitsToNat ed)
      else none

/-- The sign handling of `float`: a leading `-` negates the magnitude. -/
def pythonFloatChars (cs0 : List Char) : Option Rat :=
  match stripWsChars cs0 with
  | '+' :: r => pythonFloatMag r
  | '-' :: r => (pythonFloatMag r).map (fun q => -q)
  | r => pythonFloatMag r

/-- Python `float` on a string. -/
def pythonFloat (s : String) : Option Rat :=
  pythonFloatChars s.data

/-- Case-insensitive prefix test against an already lower-case pattern
(model of one alternative of `re.IGNORECASE` matching). -/
def matchesLowerAt : List Char → List Char → Bool
  | [], _ => true
  | _ :: _, [] => false
  | p :: ps, c :: cs => asciiLower c == p && matchesLowerAt ps cs

/-! ## spain_real_estate.py: price parsing -/

namespace SpainRealEstate

/-- One pass of Python `re.sub(r"(monthly|yearly|weekly)", "", s, re.IGNORECASE)`:
scan left to right, at every position try the alternatives in order, delete a
match and continue after it (no word boundary, so glued forms are matched
too).  The fuel argument only bounds the recursion (every step strictly
shortens the input, so `length + 1` never runs out). -/
def stripPeriodWordsGo : Nat → List Char → List Char
  | 0, l => l
  | _ + 1, [] => []
  | f + 1, c :: cs =>
    if Mirascrape.matchesLowerAt "monthly".data (c :: cs) then
      stripPeriodWordsGo f (List.drop 7 (c :: cs))
    else if Mirascrape.matchesLowerAt "yearly".data (c :: cs) then
      stripPeriodWordsGo f (List.drop 6 (c :: cs))
    else if Mirascrape.matchesLowerAt "weekly".data (c :: cs) then
      stripPeriodWordsGo f (List.drop 6 (c :: cs))
    else
      c :: stripPeriodWordsGo f cs

/-- The period-word deletion pass. -/
def stripPeriodWords (l : List Char) : List Char :=
  stripPeriodWordsGo (l.length + 1) l

/-- Embedding of `SpainRealEstateScraper.parse_price`.  `none` models Python
`None` (both a `None` argument and the empty string hit the `if not text`
guard); the pipeline removes the euro sign, strips the period words, removes
NBSP and regular spaces, strips the ends, and applies `float`. -/
def parse_price (text : Option String) : Option Rat :=
  match text with
  | none => none
  | some t =>
    if t = "" then none
    else
      let c1 := Mirascrape.removeAllChar '€' t.data
      let c2 := stripPeriodWords c1
      let c3 := Mirascrape.removeAllChar ' ' (Mirascrape.removeAllChar ' ' c2)
      let c4 := Mirascrape.stripWsChars c3
      if c4 = [] then none else Mirascrape.pythonFloatChars c4

/-- Embedding of `SpainRealEstateScraper.guess_sub_category`: English keyword
tables, checked in the source order; `none` models the Python `None` returned
when no keyword matches (the record model has no "unknown" literal, absence of
a sub-category is encoded by `None`). -/
def guess_sub_category (title : String) : Option String :=
  let t := Mirascrape.lowerStr title
  if ["apartment", "flat", "penthouse", "duplex", "studio", "townhouse"].any
      (fun w => Mirascrape.strContainsSub t w) then some "apartment"
  else if ["villa", "house", "chalet", "bungalow", "finca"].any
      (fun w => Mirascrape.strContainsSub t w) then some "house"
  else if ["commercial", "office", "shop", "hotel", "business", "restaurant"].any
      (fun w => Mirascrape.strContainsSub t w) then some "commerce"
  else if ["land", "plot"].any (fun w => Mirascrape.strContainsSub t w) then some "plot"
  else none

end SpainRealEstate

/-! ## idealista.py: category guessing -/

namespace Idealista

/-- Embedding of `IdealistaScraper._guess_sub_category`: Spanish keyword
tables checked in source order; the `specs` argument is accepted and unused,
exactly as in the source. -/
def guess_sub_category (title : String) (specs : List (String × String)) : Option String :=
  let t := Mirascrape.lowerStr title
  let _ := specs
  if ["piso", "apartamento", "ático", "atico", "estudio", "dúplex", "duplex"].any
      (fun w => Mirascrape.strContainsSub t w) then some "apartment"
  else if ["casa", "chalet", "villa", "adosado", "pareado", "finca"].any
      (fun w => Mirascrape.strContainsSub t w) then some "house"
  else if ["local", "oficina", "nave", "comercial"].any
      (fun w => Mirascrape.strContainsSub t w) then some "commerce"
  else if ["terreno", "parcela", "solar"].any
      (fun w => Mirascrape.strContainsSub t w) then some "plot"
  else none

/-- Model of the regex character class for an unquoted-key start, `[a-zA-Z_$]`. -/
def isIdentStart (c : Char) : Bool :=
  c.isAlpha || c == '_' || c == '$'

/-- Model of the regex character class for an unquoted-key character,
`[a-zA-Z0-9_$]`. -/
def isIdentChar (c : Char) : Bool :=
  c.isAlphanum || c == '_' || c == '$'

/-- Model of the regex word character class used by the word boundary
anchors around `undefined`. -/
def isWordChar (c : Char) : Bool :=
  c.isAlphanum || c == '_'

/-- Step 1 of `_js_to_json`: `s.replace("\x27", \x22)` — turn every single
quote into a double quote. -/
def jsQuotes (cs : List Char) : List Char :=
  cs.map (fun c => if c = '\x27' then '"' else c)

/-- Skip to the end of the current line without consuming the newline (the
tail of a `//.*?$` match under `re.MULTILINE`). -/
def dropLineComment : List Char → List Char
  | [] => []
  | c :: cs => if c = '\n' then c :: cs else dropLineComment cs

/-- Step 2a of `_js_to_json`: `re.sub(r"//.*?$", "", s, re.MULTILINE)` —
delete from each `//` to the end of its line. -/
def jsStripLineCommentsGo : Nat → List Char → List Char
  | 0, l => l
  | _ + 1, [] => []
  | f + 1, '/' :: '/' :: cs => jsStripLineCommentsGo f (dropLineComment cs)
  | f + 1, c :: cs => c :: jsStripLineCommentsGo f cs

/-- Line-comment deletion pass. -/
def jsStripLineComments (l : List Char) : List Char :=
  jsStripLineCommentsGo (l.length + 1) l

/-- Find the first `*/` and return what follows it (the remainder after a
lazy `/\*.*?\*/` match). -/
def findBlockEnd : List Char → Option (List Char)
  | [] => none
  | '*' :: '/' :: cs => some cs
  | _ :: cs => findBlockEnd cs

/-- Step 2b of `_js_to_json`: `re.sub(r"/\*.*?\*/", "", s, re.DOTALL)` —
delete lazily-matched block comments; an unterminated `/*` is left in place
(no match). -/
def jsStripBlockCommentsGo : Nat → List Char → List Char
  | 0, l => l
  | _ + 1, [] => []
  | f + 1, '/' :: '*' :: cs =>
    (match findBlockEnd cs with
     | some rest => jsStripBlockCommentsGo f rest
     | none => '/' :: jsStripBlockCommentsGo f ('*' :: cs))
  | f + 1, c :: cs => c :: jsStripBlockCommentsGo f cs

/-- Block-comment deletion pass. -/
def jsStripBlockComments (l : List Char) : List Char :=
  jsStripBlockCommentsGo (l.length + 1) l

/-- True when the next character does not continue a word (the trailing `\b`
of `\bundefined\b`). -/
def noWordAhead : List Char → Bool
  | [] => true
  | d :: _ => !isWordChar d

/-- Step 3 of `_js_to_json`: `re.sub(r"\bundefined\b", "null", s)` — the
`prevWord` flag records whether the previous character was a word character
(the leading `\b`). -/
def jsUndefinedGo : Nat → Bool → List Char → List Char
  | 0, _, l => l
  | _ + 1, _, [] => []
  | f + 1, prevWord, c :: cs =>
    if ¬ prevWord ∧ startsWithChars "undefined".data (c :: cs) ∧
        noWordAhead (List.drop 8 cs) then
      "null".data ++ jsUndefinedGo f true (List.drop 8 cs)
    else
      c :: jsUndefinedGo f (isWordChar c) cs

/-- The `undefined` → `null` pass. -/
def jsUndefined (prevWord : Bool) (l : List Char) : List Char :=
  jsUndefinedGo (l.length + 1) prevWord l

/-- Attempt the `\s*([a-zA-Z_$][a-zA-Z0-9_$]*)\s*:` part of the key-quoting
regex at the position just after a `\x7b` or `,`; on success return the
captured identifier and the remainder after the colon. -/
def tryKeyMatch (cs : List Char) : Option (List Char × List Char) :=
  let ws := cs.dropWhile pyIsSpace
  match ws with
  | [] => none
  | c :: rest =>
    if isIdentStart c then
      let idTail := rest.takeWhile isIdentChar
      let afterId := rest.dropWhile isIdentChar
      let afterWs := afterId.dropWhile pyIsSpace
      match afterWs with
      | ':' :: r => some (c :: idTail, r)
      | _ => none
    else none

/-- Step 4 of `_js_to_json`: quote every unquoted identifier-like key that
immediately follows `\x7b` or `,`, replacing the match by a space, the quoted
identifier and the colon, then continuing after the original colon. -/
def jsQuoteKeysGo : Nat → List Char → List Char
  | 0, l => l
  | _ + 1, [] => []
  | f + 1, c :: cs =>
    if c = '\x7b' ∨ c = ',' then
      match tryKeyMatch cs with
      | some (ident, rest) =>
        c :: ' ' :: '"' :: (ident ++ '"' :: ':' :: jsQuoteKeysGo f rest)
      | none => c :: jsQuoteKeysGo f cs
    else c :: jsQuoteKeysGo f cs

/-- The key-quoting pass. -/
def jsQuoteKeys (l : List Char) : List Char :=
  jsQuoteKeysGo (l.length + 1) l

/-- Step 5 of `_js_to_json`: `re.sub(r",\s*([\x7d\]])", r"\1", s)` — drop a
comma (and the whitespace after it) that directly precedes a closing brace
or bracket. -/
def jsTrailingCommasGo : Nat → List Char → List Char
  | 0, l => l
  | _ + 1, [] => []
  | f + 1, c :: cs =>
    if c = ',' then
      match cs.dropWhile pyIsSpace with
      | d :: rest =>
        if d = '\x7d' ∨ d = ']' then d :: jsTrailingCommasGo f rest
        else c :: jsTrailingCommasGo f cs
      | [] => c :: jsTrailingCommasGo f cs
    else c :: jsTrailingCommasGo f cs

/-- The trailing-comma removal pass. -/
def jsTrailingCommas (l : List Char) : List Char :=
  jsTrailingCommasGo (l.length + 1) l

/-- Embedding of `IdealistaScraper._js_to_json`: the five transformation
steps applied in source order. -/
def js_to_json (s : String) : String :=
  String.mk
    (jsTrailingCommas
      (jsQuoteKeys
        (jsUndefined false
          (jsStripBlockComments
            (jsStripLineComments
              (jsQuotes s.data))))))

/-! ### Gallery extraction (parse_detail_page, images) -/

/-- One entry of `adMultimediasInfo.fullScreenGalleryPics`; an absent `src`
or `url` key is the empty string (both are falsy in the `or`-chain). -/
structure GalleryPic where
  isPlan : Bool
  src : String
  url : String
  deriving Repr, DecidableEq

/-- Python `pic.get("src") or pic.get("url") or ""`. -/
def galleryUrl (p : GalleryPic) : String :=
  if p.src ≠ "" then p.src else p.url

/-- The gallery loop of `parse_detail_page`: skip plan pictures, append each
non-empty URL, and break as soon as ten images have been collected. -/
def collectGalleryGo : List GalleryPic → List String → List String
  | [], acc => acc
  | p :: rest, acc =>
    if p.isPlan then collectGalleryGo rest acc
    else
      let acc2 := if galleryUrl p ≠ "" then acc ++ [galleryUrl p] else acc
      if 10 ≤ acc2.length then acc2 else collectGalleryGo rest acc2

/-- Image extraction from the embedded gallery data. -/
def collectGallery (g : List GalleryPic) : List String :=
  collectGalleryGo g []

/-! ### Coordinate extraction (parse_detail_page) -/

/-- The `data-latitude`/`data-longitude` block of `parse_detail_page`:
`latitude = float(lat_str) if lat_str else None` followed by the same for
longitude, inside one `try/except ValueError` — an exception aborts the
remaining assignments, keeping whatever was already assigned. -/
def coordPair (latStr lonStr : String) : Option Rat × Option Rat :=
  if latStr = "" then
    if lonStr = "" then (none, none)
    else
      match pythonFloat lonStr with
      | some lo => (none, some lo)
      | none => (none, none)
  else
    match pythonFloat latStr with
    | none => (none, none)
    | some la =>
      if lonStr = "" then (some la, none)
      else
        match pythonFloat lonStr with
        | some lo => (some la, some lo)
        | none => (some la, none)

/-- Coordinate extraction of `parse_detail_page`.  `mapAttrs` is the pair of
`data-latitude`/`data-longitude` attribute strings of the map element when
one exists (DOM query supplied as an oracle; a missing attribute is `""`),
and `jsLat`/`jsLng` are the captures of the regex fallback over the raw HTML
(`none` when `lat_match and lon_match` is falsy).  The fallback runs only
when `latitude is None`, and its two `float` conversions share one
`try/except`. -/
def detailCoords (mapAttrs : Option (String × String)) (jsLat jsLng : Option String) :
    Option Rat × Option Rat :=
  let mp : Option Rat × Option Rat :=
    match mapAttrs with
    | none => (none, none)
    | some (la, lo) => coordPair la lo
  if mp.1 = none then
    match jsLat, jsLng with
    | some ls, some gs =>
      (match pythonFloat ls with
       | none => mp
       | some la =>
         match pythonFloat gs with
         | none => (some la, mp.2)
         | some lo => (some la, some lo))
    | _, _ => mp
  else mp

end Idealista

/-! ## models.py: the canonical record -/

namespace Models

/-- Embedding of `Translation` (src/models.py). -/
structure Translation where
  property_id : String
  locale : String
  title : Option String
  description : Option String
  features : Option (List String)
  deriving Repr, DecidableEq

/-- Embedding of `Property` (src/models.py).  Python floats are rationals,
`None` is `Option.none`, the `specs` dict is an insertion-ordered association
list with unique keys. -/
structure Property where
  id : String
  listing_type : String
  sub_category : Option String
  status : String
  title : String
  description : Option String
  price : Option Rat
  location : Option String
  region : String
  province : Option String
  municipality : Option String
  neighborhood : Option String
  postal_code : Option String
  latitude : Option Rat
  longitude : Option Rat
  images : List String
  specs : List (String × String)
  features : List String
  source : String
  source_id : String
  source_url : Option String
  enriched : Bool
  translations : List Translation
  deriving Repr, DecidableEq

/-- A record with every field at its `models.py` default (used to build
concrete instances in witnesses). -/
def emptyProperty : Property where
  id := ""
  listing_type := "sale"
  sub_category := none
  status := "available"
  title := ""
  description := none
  price := none
  location := none
  region := "Comunidad Valenciana"
  province := none
  municipality := none
  neighborhood := none
  postal_code := none
  latitude := none
  longitude := none
  images := []
  specs := []
  features := []
  source := "idealista"
  source_id := ""
  source_url := none
  enriched := false
  translations := []

/-- Embedding of the `set_id` model validator: after construction, an empty
(i.e. not supplied) `id` is replaced by `f"\x7bsource\x7d-\x7bsource_id\x7d"`;
a non-empty `id` is kept. -/
def Property.set_id (p : Property) : Property :=
  if p.id = "" then { p with id := p.source ++ "-" ++ p.source_id } else p

end Models

/-! ## Strict JSON parsing

A model of the strict parser (`json.loads`) that the scraper feeds the
coerced JS literals to: JSON whitespace, objects, arrays, strings with the
standard escapes, numbers without leading zeros, and the three literals. -/

namespace Json

/-- Parsed JSON values; numbers are exact rationals, object member order is
insertion order. -/
inductive JsonVal where
  | null
  | bool (b : Bool)
  | num (q : Rat)
  | str (s : String)
  | arr (elts : List JsonVal)
  | obj (members : List (String × JsonVal))
  deriving Repr

/-- JSON inter-token whitespace. -/
def jsonWs (c : Char) : Bool :=
  c == ' ' || c == '\t' || c == '\n' || c == '\r'

/-- Value of a hexadecimal digit. -/
def hexVal (c : Char) : Option Nat :=
  if c.isDigit then some (c.toNat - 48)
  else if 'a' ≤ c ∧ c ≤ 'f' then some (c.toNat - 87)
  else if 'A' ≤ c ∧ c ≤ 'F' then some (c.toNat - 70)
  else none

/-- Single-character string escapes. -/
def escChar (c : Char) : Option Char :=
  if c = '"' then some '"'
  else if c = '\\' then some '\\'
  else if c = '/' then some '/'
  else if c = 'b' then some '\x08'
  else if c = 'f' then some '\x0c'
  else if c = 'n' then some '\n'
  else if c = 'r' then some '\r'
  else if c = 't' then some '\t'
  else none

/-- Parse the body of a string literal (the opening quote already consumed);
returns the characters and the remainder after the closing quote.  Control
characters are rejected, as in strict JSON. -/
def parseStringChars : List Char → Option (List Char × List Char)
  | [] => none
  | '"' :: rest => some ([], rest)
  | '\\' :: 'u' :: h1 :: h2 :: h3 :: h4 :: r =>
    match hexVal h1, hexVal h2, hexVal h3, hexVal h4 with
    | some a, some b, some c, some d =>
      match parseStringChars r with
      | some (cs, rem) => some (Char.ofNat (((a * 16 + b) * 16 + c) * 16 + d) :: cs, rem)
      | none => none
    | _, _, _, _ => none
  | '\\' :: e :: r =>
    match escChar e with
    | some c =>
      match parseStringChars r with
      | some (cs, rem) => some (c :: cs, rem)
      | none => none
    | none => none
  | c :: r =>
    if c.toNat < 32 then none
    else
      match parseStringChars r with
      | some (cs, rem) => some (c :: cs, rem)
      | none => none

/-- Parse a JSON number at the head of the input: optional minus, an integer
part without leading zeros, optional fraction, optional exponent. -/
def parseNumber (cs : List Char) : Option (JsonVal × List Char) :=
  let sign : Bool × List Char :=
    match cs with
    | '-' :: r => (true, r)
    | r => (false, r)
  let ip := sign.2.takeWhile Char.isDigit
  let r1 := sign.2.dropWhile Char.isDigit
  if ip = [] then none
  else if 1 < ip.length ∧ ip.head? = some '0' then none
  else
    let fracRest : List Char × List Char :=
      match r1 with
      | '.' :: r => (r.takeWhile Char.isDigit, r.dropWhile Char.isDigit)
      | r => ([], r)
    let fp := fracRest.1
    let r2 := fracRest.2
    if r1.head? = some '.' ∧ fp = [] then none
    else
      let mag : Rat :=
        (Mirascrape.digitsToNat ip : Rat) +
          (Mirascrape.digitsToNat fp : Rat) / ((10 : Rat) ^ fp.length)
      match r2 with
      | 'e' :: r3 | 'E' :: r3 =>
        let esign : Bool × List Char :=
          match r3 with
          | '+' :: r => (false, r)
          | '-' :: r => (true, r)
          | r => (false, r)
        let ed := esign.2.takeWhile Char.isDigit
        let r4 := esign.2.dropWhile Char.isDigit
        if ed = [] then none
        else
          let m2 : Rat :=
            if esign.1 then mag / (10 : Rat) ^ Mirascrape.digitsToNat ed
            else mag * (10 : Rat) ^ Mirascrape.digitsToNat ed
          some (.num (if sign.1 then -m2 else m2), r4)
      | r3 => some (.num (if sign.1 then -mag else mag), r3)

mutual

/-- Parse one JSON value after skipping whitespace; `fuel` bounds the nesting
and is always given at least the input length plus one. -/
def parseValue : Nat → List Char → Option (JsonVal × List Char)
  | 0, _ => none
  | fuel + 1, cs0 =>
    let cs := cs0.dropWhile jsonWs
    match cs with
    | '\x7b' :: rest =>
      let rest2 := rest.dropWhile jsonWs
      (match rest2 with
       | '\x7d' :: r => some (.obj [], r)
       | _ =>
         match parseMembers fuel rest2 with
         | some (ms, r) => some (.obj ms, r)
         | none => none)
    | '[' :: rest =>
      let rest2 := rest.dropWhile jsonWs
      (match rest2 with
       | ']' :: r => some (.arr [], r)
       | _ =>
         match parseElements fuel rest2 with
         | some (es, r) => some (.arr es, r)
         | none => none)
    | '"' :: rest =>
      (match parseStringChars rest with
       | some (s, r) => some (.str (String.mk s), r)
       | none => none)
    | 't' :: rest =>
      if Mirascrape.startsWithChars "rue".data rest then
        some (.bool true, rest.drop 3)
      else none
    | 'f' :: rest =>
      if Mirascrape.startsWithChars "alse".data rest then
        some (.bool false, rest.drop 4)
      else none
    | 'n' :: rest =>
      if Mirascrape.startsWithChars "ull".data rest then
        some (.null, rest.drop 3)
      else none
    | _ => parseNumber cs

/-- Parse the members of an object, positioned at the first key. -/
def parseMembers : Nat → List Char → Option (List (String × JsonVal) × List Char)
  | 0, _ => none
  | fuel + 1, cs =>
    match cs with
    | '"' :: rest =>
      (match parseStringChars rest with
       | some (k, r1) =>
         (match r1.dropWhile jsonWs with
          | ':' :: r3 =>
            (match parseValue fuel r3 with
             | some (v, r4) =>
               (match r4.dropWhile jsonWs with
                | ',' :: r6 =>
                  (match parseMembers fuel (r6.dropWhile jsonWs) with
                   | some (ms, r7) => some ((String.mk k, v) :: ms, r7)
                   | none => none)
                | '\x7d' :: r6 => some ([(String.mk k, v)], r6)
                | _ => none)
             | none => none)
          | _ => none)
       | none => none)
    | _ => none

/-- Parse the elements of an array, positioned at the first element. -/
def parseElements : Nat → List Char → Option (List JsonVal × List Char)
  | 0, _ => none
  | fuel + 1, cs =>
    match parseValue fuel cs with
    | some (v, r1) =>
      (match r1.dropWhile jsonWs with
       | ',' :: r2 =>
         (match parseElements fuel r2 with
          | some (es, r3) => some (v :: es, r3)
          | none => none)
       | ']' :: r2 => some ([v], r2)
       | _ => none)
    | none => none

end

/-- Model of strict `json.loads`: parse one value and require only
whitespace to remain. -/
def loads (s : String) : Option JsonVal :=
  match parseValue (s.length + 1) s.data with
  | some (v, rest) => if rest.dropWhile jsonWs = [] then some v else none
  | none => none

end Json

/-! ## Python truthiness on optional fields -/

/-- Python truthiness of an optional string (`None` and `""` are falsy). -/
def truthyOptStr : Option String → Bool
  | none => false
  | some s => s ≠ ""

/-- Python truthiness of an optional float (`None` and `0.0` are falsy). -/
def truthyOptRat : Option Rat → Bool
  | none => false
  | some q => q ≠ 0

/-- Python `k in d` on the specs dict. -/
def specsHasKey (d : List (String × String)) (k : String) : Bool :=
  d.any (fun kv => kv.1 == k)

/-- Lookup in the specs dict (keys are unique, first binding wins). -/
def specsGet (d : List (String × String)) (k : String) : Option String :=
  (d.find? (fun kv => kv.1 == k)).map (fun kv => kv.2)

/-- Python `for k, v in add.items(): if k not in base: base[k] = v` —
insertion appends at the end of the insertion order. -/
def specsFillMissing (base add : List (String × String)) : List (String × String) :=
  add.foldl (fun d kv => if specsHasKey d kv.1 then d else d ++ [kv]) base

/-- First-occurrence de-duplication: Python's `seen` set plus ordered list,
where the set always contains exactly the list's elements. -/
def firstOcc (l : List String) : List String :=
  l.foldl (fun acc s => if s ∈ acc then acc else acc ++ [s]) []

namespace Idealista

/-- Embedding of the per-record merge step of
`IdealistaScraper._enrich_from_detail_pages` (the body of the
`if detail_prop:` block): detail-page data fills gaps in `prop`, with the
field order, truthiness guards and the image / specs / title rules of the
source. -/
def enrichMerge (prop detail : Models.Property) : Models.Property :=
  let p1 :=
    if ¬ truthyOptStr prop.description ∧ truthyOptStr detail.description then
      { prop with description := detail.description } else prop
  let p2 :=
    if ¬ truthyOptRat p1.latitude ∧ truthyOptRat detail.latitude then
      { p1 with latitude := detail.latitude, longitude := detail.longitude } else p1
  let p3 :=
    if ¬ truthyOptStr p2.neighborhood ∧ truthyOptStr detail.neighborhood then
      { p2 with neighborhood := detail.neighborhood } else p2
  let p4 :=
    if ¬ truthyOptStr p3.postal_code ∧ truthyOptStr detail.postal_code then
      { p3 with postal_code := detail.postal_code } else p3
  let p5 :=
    if p4.images.length < detail.images.length then
      { p4 with images := detail.images } else p4
  let p6 := { p5 with specs := specsFillMissing p5.specs detail.specs }
  if detail.title ≠ "" ∧ detail.title ≠ "Listing " ++ p6.source_id then
    { p6 with
      title := detail.title,
      sub_category := guess_sub_category detail.title p6.specs }
  else p6

end Idealista

namespace SpainRealEstate

/-- Result of `SpainRealEstateScraper._parse_detail_data` restricted to the
coordinate keys: which of `latitude` / `longitude` end up present in the
returned dict. -/
structure CoordData where
  latitude : Option Rat
  longitude : Option Rat
  deriving Repr, DecidableEq

/-- Coordinate extraction of `_parse_detail_data`.  `mapEntry` holds the
`lat`/`lng` strings of the first `OBJECT_MAP_DATA` entry when the script
variable parses and the entry passes the `if lat and lng` truthiness guard
(`none` otherwise); `metaAttrs` holds the `content` attributes of the
schema.org meta tags when both tags exist.  Within each branch the two
`float` conversions run under one `try/except`, so a failing longitude
conversion leaves a dict containing only `latitude`. -/
def parseDetailCoords (mapEntry : Option (String × String))
    (metaAttrs : Option (String × String)) : CoordData :=
  let fromMap : CoordData :=
    match mapEntry with
    | none => ⟨none, none⟩
    | some (la, lo) =>
      match Mirascrape.pythonFloat la with
      | none => ⟨none, none⟩
      | some lav =>
        match Mirascrape.pythonFloat lo with
        | none => ⟨some lav, none⟩
        | some lov => ⟨some lav, some lov⟩
  if fromMap.latitude = none then
    match metaAttrs with
    | none => fromMap
    | some (la, lo) =>
      match Mirascrape.pythonFloat la with
      | none => fromMap
      | some lav =>
        match Mirascrape.pythonFloat lo with
        | none => ⟨some lav, fromMap.longitude⟩
        | some lov => ⟨some lav, some lov⟩
  else fromMap

/-- Embedding of `SpainRealEstateScraper._fetch_page`'s retry loop over the
HTTP client.  `responses` yields the status and body of each attempt,
`browser` the result of `_fetch_with_browser`; the second component counts
the HTTP attempts made.  A 403 cools down and retries; any other status of
400 or more raises `FetchError` at once; after `maxRetries` consecutive 403s
the scraper switches to the browser fallback. -/
def fetchPage (maxRetries : Nat) (responses : Nat → Nat × String)
    (browser : Except Nat String) : Except Nat String × Nat :=
  go 0 maxRetries
where
  /-- Loop of `for attempt in range(settings.MAX_RETRIES)`. -/
  go (attempt : Nat) : Nat → Except Nat String × Nat
    | 0 => (browser, attempt)
    | remaining + 1 =>
      let r := responses attempt
      if r.1 = 403 then go (attempt + 1) remaining
      else if 400 ≤ r.1 then (Except.error r.1, attempt + 1)
      else (Except.ok r.2, attempt + 1)

end SpainRealEstate

namespace Idealista

/-- Embedding of `_is_retryable` (idealista.py): a `FetchError` is retryable
exactly when its status code is 403, 429 or 503. -/
def is_retryable (status : Nat) : Bool :=
  status == 403 || status == 429 || status == 503

/-- Embedding of the tenacity policy on `IdealistaScraper._fetch` /
`_fetch_json`: `stop_after_attempt(3)`, `retry_if_exception(_is_retryable)`,
`reraise=True`.  `responses` yields each attempt's outcome (`Except.error`
carries the `FetchError` status); the second component counts attempts. -/
def fetchRetryGo (responses : Nat → Except Nat String) :
    Nat → Nat → Except Nat String × Nat
  | 0, attempt =>
    (match responses attempt with
     | Except.ok body => (Except.ok body, attempt + 1)
     | Except.error st => (Except.error st, attempt + 1))
  | remaining + 1, attempt =>
    match responses attempt with
    | Except.ok body => (Except.ok body, attempt + 1)
    | Except.error st =>
      if is_retryable st then fetchRetryGo responses remaining (attempt + 1)
      else (Except.error st, attempt + 1)

/-- The retry-wrapped fetch: three attempts in total. -/
def fetchWithRetry (responses : Nat → Except Nat String) : Except Nat String × Nat :=
  fetchRetryGo responses 2 0

/-! ### HTML listing fallback loop (`_scrape_html_pages`) -/

/-- The page loop of `_scrape_html_pages`.  `oracle p` is the outcome of
fetching list page `p` (`none` = `FetchError`, otherwise the extracted ids
and the total-page count from that page); the loop walks the remaining page
numbers, breaks before fetching when `page > total_pages and page > 1`,
breaks after a failed fetch, refines `total_pages` from page 1 only, and
never inspects how many ids a page produced.  Returns the accumulated ids
and the pages actually fetched. -/
def idaGo (oracle : Nat → Option (List String × Nat)) :
    List Nat → Nat → List String → List Nat → List String × List Nat
  | [], _, ids, pages => (ids, pages)
  | p :: rest, total, ids, pages =>
    if total < p ∧ 1 < p then (ids, pages)
    else
      match oracle p with
      | none => (ids, pages ++ [p])
      | some (pids, t) =>
        idaGo oracle rest (if p = 1 then t else total) (ids ++ pids) (pages ++ [p])

/-- Embedding of `IdealistaScraper._scrape_html_pages`: collect ids across
pages 1..max_pages, de-duplicate preserving order, then fetch a detail page
per unique id (`detailOk` tells whether that fetch succeeds;
`parse_detail_page` always returns a record, so each successful fetch
contributes exactly one property).  Returns the source ids of the returned
properties and the list pages fetched. -/
def scrape_html_pages (oracle : Nat → Option (List String × Nat))
    (detailOk : String → Bool) (maxPages : Nat) : List String × List Nat :=
  let collected := idaGo oracle (List.range' 1 maxPages) 1 [] []
  ((firstOcc collected.1).filter detailOk, collected.2)

end Idealista

/-! ## spain_real_estate.py: listing orchestration -/

namespace SpainRealEstate

/-- What one fetched list page yields: the item ids in page order, the
`parse_total_count` result and the `parse_last_page` result. -/
structure SrePage where
  items : List String
  totalCount : Nat
  lastPage : Nat
  deriving Repr, DecidableEq

def ITEMS_PER_PAGE : Nat := 24

/-- The page-1 refinement of `total_pages`: `math.ceil(total_count / 24)`
when the counter is non-zero (truthy), else the raw pagination maximum. -/
def refinedBound (pg : SrePage) : Nat :=
  if pg.totalCount ≠ 0 then (pg.totalCount + ITEMS_PER_PAGE - 1) / ITEMS_PER_PAGE
  else pg.lastPage

/-- Running state of a scrape: the `seen_ids` set (as its insertion-ordered
list of elements — the set and `all_properties` grow in lockstep), the
retained ids in order, the fetched `(tab, page)` pairs, and the full item
stream of processed pages. -/
structure SreState where
  seen : List String
  acc : List String
  pages : List (String × Nat)
  stream : List String
  deriving Repr, DecidableEq

/-- The per-item loop: skip an already-seen id, otherwise record it in the
seen set and append the built property. -/
def procItems : List String → List String → List String → List String × List String
  | seen, acc, [] => (seen, acc)
  | seen, acc, sid :: rest =>
    if sid ∈ seen then procItems seen acc rest
    else procItems (seen ++ [sid]) (acc ++ [sid]) rest

/-- The `while page <= min(max_pages, total_pages)` loop of
`SpainRealEstateScraper.scrape` for one tab.  A fetch failure breaks after
the attempt; an empty page breaks after the fetch; `total_pages` is refined
on page 1 only (after the empty-check, before the items are processed). -/
def sreLoop (oracle : Nat → Option SrePage) (tab : String) (maxPages : Nat) :
    Nat → Nat → Nat → SreState → SreState
  | _, _, 0, st => st
  | bound, page, fuel + 1, st =>
    if min maxPages bound < page then st
    else
      match oracle page with
      | none => { st with pages := st.pages ++ [(tab, page)] }
      | some pg =>
        if pg.items = [] then { st with pages := st.pages ++ [(tab, page)] }
        else
          let bound2 := if page = 1 then refinedBound pg else bound
          let pr := procItems st.seen st.acc pg.items
          sreLoop oracle tab maxPages bound2 (page + 1) fuel
            { seen := pr.1, acc := pr.2,
              pages := st.pages ++ [(tab, page)],
              stream := st.stream ++ pg.items }

/-- Embedding of `SpainRealEstateScraper.scrape`: fold the per-tab page loop
over the tab list, sharing the `seen_ids` set and the property accumulator
across tabs. -/
def scrape (oracle : String → Nat → Option SrePage) (tabs : List String)
    (maxPages : Nat) : SreState :=
  tabs.foldl
    (fun st tab => sreLoop (oracle tab) tab maxPages maxPages 1 (maxPages + 1) st)
    ⟨[], [], [], []⟩

/-- The pure page trace of one tab's loop: the page numbers `sreLoop`
fetches, independent of the accumulated state. -/
def srePages (oracle : Nat → Option SrePage) (maxPages : Nat) :
    Nat → Nat → Nat → List Nat
  | _, _, 0 => []
  | bound, page, fuel + 1 =>
    if min maxPages bound < page then []
    else
      match oracle page with
      | none => [page]
      | some pg =>
        if pg.items = [] then [page]
        else
          page ::
            srePages oracle maxPages (if page = 1 then refinedBound pg else bound)
              (page + 1) fuel

end SpainRealEstate

/-! ## cli.py: the resumable enrich pass -/

namespace Cli

/-- Trace of the `enrich` command's main loop: the final in-memory list, the
collection written by `_save_jsonl` after each processed record (in order),
and the source ids for which a detail fetch (`scraper.enrich_property`) was
performed. -/
structure EnrichTrace where
  final : List Models.Property
  snaps : List (List Models.Property)
  fetched : List String
  deriving Repr, DecidableEq

/-- The loop body of the `enrich` command: records are processed one at a
time in file order; an already-`enriched` record is skipped without any
fetch and without a save; otherwise `enrich_property` is called (modelled by
the oracle `e`), the record is replaced in place, and the entire collection
is saved. -/
def enrichGo (e : Models.Property → Models.Property) :
    List Models.Property → List Models.Property → EnrichTrace
  | done, [] => ⟨done, [], []⟩
  | done, p :: rest =>
    if p.enriched then enrichGo e (done ++ [p]) rest
    else
      let r := e p
      let t := enrichGo e (done ++ [r]) rest
      ⟨t.final, (done ++ r :: rest) :: t.snaps, p.source_id :: t.fetched⟩

/-- The `enrich` command run on a loaded file. -/
def enrichRun (e : Models.Property → Models.Property)
    (props : List Models.Property) : EnrichTrace :=
  enrichGo e [] props

/-- Number of positions at which two equal-length collections differ. -/
def countDiff : List Models.Property → List Models.Property → Nat
  | [], _ => 0
  | _, [] => 0
  | a :: as, b :: bs => (if a = b then 0 else 1) + countDiff as bs

/-- Every adjacent pair in a sequence of collections differs in at most one
position. -/
def chainLe1 : List (List Models.Property) → Bool
  | [] => true
  | [_] => true
  | a :: b :: rest => countDiff a b ≤ 1 && chainLe1 (b :: rest)

end Cli

/-! ## Claim C2: id derivation -/

/-- C2: for every valid `(source, source_id)` pair, construction (running the
`set_id` validator with the `id` field at its not-supplied default `""`)
leaves `id = "\x7bsource\x7d-\x7bsource_id\x7d"`, whatever the other fields
hold. -/
theorem property_id_derived (p : Models.Property) (h : p.id = "") :
    (Models.Property.set_id p).id = p.source ++ "-" ++ p.source_id := by
  simp [Models.Property.set_id, h]

/-- Witness for C2 at a concrete record. -/
theorem property_id_derived_witness :
    (Models.Property.set_id
      { Models.emptyProperty with
          source := "idealista", source_id := "107552466",
          title := "Piso en venta", price := some 181000 }).id = "idealista-107552466" :=
  (property_id_derived _ rfl).trans (by decide)

/-! ## Claim C9: category guessing -/

/-- C9: both category guessers are pure total functions into the fixed
four-word vocabulary (with `none` encoding "unknown" — the record model has
no other value for an unmatched title), and the two example titles map to
`apartment` and `plot`. -/
theorem guess_category_total_and_examples :
    (∀ t specs, Idealista.guess_sub_category t specs ∈
      [none, some "apartment", some "house", some "commerce", some "plot"]) ∧
    (∀ t, SpainRealEstate.guess_sub_category t ∈
      [none, some "apartment", some "house", some "commerce", some "plot"]) ∧
    Idealista.guess_sub_category "Piso en venta en Valencia" [] = some "apartment" ∧
    Idealista.guess_sub_category "Terreno en venta" [] = some "plot" := by
  refine ⟨?_, ?_, by decide, by decide⟩
  · intro t specs
    unfold Idealista.guess_sub_category
    dsimp only
    split_ifs <;> simp
  · intro t
    unfold SpainRealEstate.guess_sub_category
    dsimp only
    split_ifs <;> simp

/-! ## Claim C10: the ten-image gallery cap -/

theorem collectGalleryGo_length_le (g : List Idealista.GalleryPic)
    (acc : List String) (h : acc.length < 10) :
    (Idealista.collectGalleryGo g acc).length ≤ 10 := by
  induction g generalizing acc with
  | nil => simpa [Idealista.collectGalleryGo] using Nat.le_of_lt h
  | cons p rest ih =>
    rw [Idealista.collectGalleryGo]
    split
    · exact ih acc h
    · by_cases hu : Idealista.galleryUrl p = ""
      · simp only [hu, ne_eq, not_true_eq_false, if_false]
        split
        · omega
        · exact ih acc h
      · simp only [hu, ne_eq, not_false_eq_true, if_true]
        split
        · rename_i h2
          simp only [List.length_append, List.length_cons, List.length_nil] at h2 ⊢
          omega
        · rename_i h2
          refine ih _ ?_
          simp only [List.length_append, List.length_cons, List.length_nil] at h2 ⊢
          omega

theorem collectGalleryGo_mem (g : List Idealista.GalleryPic) (acc : List String)
    (u : String) (h : u ∈ Idealista.collectGalleryGo g acc) :
    u ∈ acc ∨ ∃ p, p ∈ g ∧ p.isPlan = false ∧ u = Idealista.galleryUrl p := by
  induction g generalizing acc with
  | nil =>
    rw [Idealista.collectGalleryGo] at h
    exact Or.inl h
  | cons p rest ih =>
    rw [Idealista.collectGalleryGo] at h
    split at h
    · rcases ih acc h with h1 | ⟨q, hq, hqp, hqu⟩
      · exact Or.inl h1
      · exact Or.inr ⟨q, List.mem_cons_of_mem _ hq, hqp, hqu⟩
    · rename_i hplan
      have hplan2 : p.isPlan = false := by
        cases hp : p.isPlan
        · rfl
        · exact absurd hp hplan
      by_cases hu : Idealista.galleryUrl p = ""
      · simp only [hu, ne_eq, not_true_eq_false, if_false] at h
        split at h
        · exact Or.inl h
        · rcases ih acc h with h1 | ⟨q, hq, hqp, hqu⟩
          · exact Or.inl h1
          · exact Or.inr ⟨q, List.mem_cons_of_mem _ hq, hqp, hqu⟩
      · simp only [hu, ne_eq, not_false_eq_true, if_true] at h
        split at h
        · rcases List.mem_append.mp h with h1 | h1
          · exact Or.inl h1
          · simp only [List.mem_singleton] at h1
            exact Or.inr ⟨p, List.mem_cons_self _ _, hplan2, h1⟩
        · rcases ih _ h with h1 | ⟨q, hq, hqp, hqu⟩
          · rcases List.mem_append.mp h1 with h2 | h2
            · exact Or.inl h2
            · simp only [List.mem_singleton] at h2
              exact Or.inr ⟨p, List.mem_cons_self _ _, hplan2, h2⟩
          · exact Or.inr ⟨q, List.mem_cons_of_mem _ hq, hqp, hqu⟩

/-- C10: the image list a detail page yields holds at most ten URLs; every
collected URL comes from a non-plan gallery picture; and on a concrete
twelve-picture gallery exactly the first ten survive. -/
theorem gallery_capped_at_ten :
    (∀ g, (Idealista.collectGallery g).length ≤ 10) ∧
    (∀ g u, u ∈ Idealista.collectGallery g →
      ∃ p, p ∈ g ∧ p.isPlan = false ∧ u = Idealista.galleryUrl p) ∧
    Idealista.collectGallery
      [⟨false, "p1", ""⟩, ⟨false, "p2", ""⟩, ⟨true, "plan", ""⟩, ⟨false, "p3", ""⟩,
       ⟨false, "p4", ""⟩, ⟨false, "p5", ""⟩, ⟨false, "p6", ""⟩, ⟨false, "p7", ""⟩,
       ⟨false, "p8", ""⟩, ⟨false, "p9", ""⟩, ⟨false, "p10", ""⟩, ⟨false, "p11", ""⟩,
       ⟨false, "p12", ""⟩] =
      ["p1", "p2", "p3", "p4", "p5", "p6", "p7", "p8", "p9", "p10"] := by
  refine ⟨?_, ?_, by decide⟩
  · intro g
    exact collectGalleryGo_length_le g [] (by simp)
  · intro g u h
    rcases collectGalleryGo_mem g [] u h with h1 | h2
    · exact absurd h1 (List.not_mem_nil u)
    · exact h2

/-- Witness for C10: applying the bound and the provenance part at a
one-picture gallery. -/
theorem gallery_capped_at_ten_witness :
    ∃ p, p ∈ [(⟨false, "a", ""⟩ : Idealista.GalleryPic)] ∧ p.isPlan = false ∧
      "a" = Idealista.galleryUrl p :=
  gallery_capped_at_ten.2.1 [⟨false, "a", ""⟩] "a" (by decide)

/-! ## Claim C3: price parsing -/

theorem mem_of_mem_dropWhile {α : Type} (p : α → Bool) :
    ∀ (l : List α) (c : α), c ∈ l.dropWhile p → c ∈ l := by
  intro l
  induction l with
  | nil => intro c h; simpa using h
  | cons a as ih =>
    intro c h
    rw [List.dropWhile_cons] at h
    split at h
    · exact List.mem_cons_of_mem _ (ih c h)
    · exact h

theorem mem_of_mem_stripWs (cs : List Char) (c : Char) (h : c ∈ stripWsChars cs) :
    c ∈ cs := by
  unfold stripWsChars at h
  rw [List.mem_reverse] at h
  have h2 := mem_of_mem_dropWhile _ _ _ h
  rw [List.mem_reverse] at h2
  exact mem_of_mem_dropWhile _ _ _ h2

theorem mem_of_mem_removeAllChar (c0 : Char) (cs : List Char) (c : Char)
    (h : c ∈ removeAllChar c0 cs) : c ∈ cs := by
  unfold removeAllChar at h
  exact (List.mem_filter.mp h).1

theorem mem_of_mem_stripPeriodWordsGo :
    ∀ (f : Nat) (l : List Char) (c : Char),
      c ∈ SpainRealEstate.stripPeriodWordsGo f l → c ∈ l := by
  intro f
  induction f with
  | zero => intro l c h; simpa [SpainRealEstate.stripPeriodWordsGo] using h
  | succ f ih =>
    intro l c h
    cases l with
    | nil => simpa [SpainRealEstate.stripPeriodWordsGo] using h
    | cons a as =>
      simp only [SpainRealEstate.stripPeriodWordsGo] at h
      split_ifs at h
      · exact List.mem_of_mem_drop (ih _ _ h)
      · exact List.mem_of_mem_drop (ih _ _ h)
      · exact List.mem_of_mem_drop (ih _ _ h)
      · rcases List.mem_cons.mp h with h1 | h1
        · exact h1 ▸ List.mem_cons_self _ _
        · exact List.mem_cons_of_mem _ (ih _ _ h1)

theorem mem_of_mem_stripPeriodWords (l : List Char) (c : Char)
    (h : c ∈ SpainRealEstate.stripPeriodWords l) : c ∈ l := by
  unfold SpainRealEstate.stripPeriodWords at h
  exact mem_of_mem_stripPeriodWordsGo _ _ _ h

theorem pythonFloatMag_nonneg : ∀ (cs : List Char) (r : Rat),
    pythonFloatMag cs = some r → 0 ≤ r := by
  intro cs r h
  unfold pythonFloatMag at h
  dsimp only at h
  split at h
  · exact absurd h (by simp)
  · split at h
    · simp only [Option.some.injEq] at h
      subst h
      positivity
    · split at h
      · split at h
        · exact absurd h (by simp)
        · simp only [Option.some.injEq] at h
          subst h
          split
          · positivity
          · positivity
      · exact absurd h (by simp)

theorem pythonFloatChars_nonneg (cs : List Char) (r : Rat)
    (hm : '-' ∉ cs) (h : pythonFloatChars cs = some r) : 0 ≤ r := by
  unfold pythonFloatChars at h
  split at h
  · exact pythonFloatMag_nonneg _ _ h
  · rename_i rest heq
    exact absurd (mem_of_mem_stripWs _ _ (heq ▸ List.mem_cons_self _ _)) hm
  · exact pythonFloatMag_nonneg _ _ h

theorem parse_price_nonneg :
    ∀ (s : String) (r : Rat), '-' ∉ s.data →
      SpainRealEstate.parse_price (some s) = some r → 0 ≤ r := by
  intro s r hm h
  unfold SpainRealEstate.parse_price at h
  dsimp only at h
  split_ifs at h
  refine pythonFloatChars_nonneg _ _ ?_ h
  intro hmem
  have h1 := mem_of_mem_stripWs _ _ hmem
  have h2 := mem_of_mem_removeAllChar _ _ _ h1
  have h3 := mem_of_mem_removeAllChar _ _ _ h2
  have h4 := mem_of_mem_stripPeriodWords _ _ h3
  exact absurd (mem_of_mem_removeAllChar _ _ _ h4) hm

/-- C3 (counterexample): `parse_price` is not non-negative on all parseable
input — a minus sign is kept and parsed — and an interior narrow no-break
space (U+202F) is not stripped, so that input is unparseable and yields
`None` instead of a number. -/
theorem parse_price_claim_cex :
    SpainRealEstate.parse_price (some "-5") = some (-5) ∧
    ¬ (0 : Rat) ≤ (-5 : Rat) ∧
    SpainRealEstate.parse_price (some "€ 1 000") = none :=
  ⟨by with_unfolding_all decide, by norm_num, by with_unfolding_all decide⟩

/-- C3 (amended): `parse_price` strips the currency glyph, regular and
no-break spaces, and glued or spaced period words; it returns `None` on
empty or unparseable input; the five specification examples hold; and the
result is non-negative whenever the input contains no minus sign (interior
narrow no-break spaces are not stripped and make an input unparseable, and a
minus sign is parsed, so the unqualified non-negativity of the original
claim fails — see the counterexample). -/
theorem parse_price_contract :
    SpainRealEstate.parse_price (some "€ 181 000") = some 181000 ∧
    SpainRealEstate.parse_price (some "€ 1 500 monthly") = some 1500 ∧
    SpainRealEstate.parse_price (some "€ 995 000") = some 995000 ∧
    SpainRealEstate.parse_price (some "") = none ∧
    SpainRealEstate.parse_price (some "€ 1 977monthly") = some 1977 ∧
    SpainRealEstate.parse_price none = none ∧
    (∀ (s : String) (r : Rat), '-' ∉ s.data →
      SpainRealEstate.parse_price (some s) = some r → 0 ≤ r) :=
  ⟨by with_unfolding_all exact rfl, by with_unfolding_all exact rfl,
   by with_unfolding_all exact rfl, by decide, by with_unfolding_all exact rfl,
   rfl, parse_price_nonneg⟩

/-- Witness for C3 at the concrete input `"7"`. -/
theorem parse_price_contract_witness : (0 : Rat) ≤ 7 :=
  parse_price_contract.2.2.2.2.2.2 "7" 7 (by decide) (by with_unfolding_all exact rfl)

/-! ## Claim C4: the JS-literal → JSON coercion -/

/-- C4: `_js_to_json` is exactly the ordered composition of the five
transformations (quote conversion, line and block comment stripping,
`undefined` → `null`, key quoting, trailing-comma removal), and the example
literal coerces to text that strict JSON parsing accepts as
`\x7b"initialPrice": 150000, "type": "sale", "extra": null\x7d`. -/
theorem js_to_json_coercion :
    (∀ s : String, Idealista.js_to_json s =
      String.mk (Idealista.jsTrailingCommas (Idealista.jsQuoteKeys
        (Idealista.jsUndefined false (Idealista.jsStripBlockComments
          (Idealista.jsStripLineComments (Idealista.jsQuotes s.data))))))) ∧
    Idealista.js_to_json "\x7binitialPrice: 150000, type: \x27sale\x27, extra: undefined,\x7d" =
      "\x7b \"initialPrice\": 150000, \"type\": \"sale\", \"extra\": null\x7d" ∧
    Json.loads "\x7b \"initialPrice\": 150000, \"type\": \"sale\", \"extra\": null\x7d" =
      some (Json.JsonVal.obj
        [("initialPrice", Json.JsonVal.num 150000),
         ("type", Json.JsonVal.str "sale"),
         ("extra", Json.JsonVal.null)]) := by
  refine ⟨fun s => rfl, by decide, ?_⟩
  with_unfolding_all exact rfl

/-! ## Claim C8: the latitude/longitude pairing invariant -/

/-- C8 (violation witness): the coordinate extractors can produce one
coordinate without the other.  A map element carrying only
`data-longitude="2.3"` (no latitude, no JS fallback match) yields
`longitude` set and `latitude = None`; a map element with
`data-latitude="39.5"` and an unparseable longitude yields the opposite; the
spain detail parser with `OBJECT_MAP_DATA` entry `lat="41.5", lng="2.2.2"`
stores `latitude` alone because the longitude conversion raises after the
latitude was stored. -/
theorem coords_unpaired_at_failing_inputs :
    Idealista.detailCoords (some ("", "2.3")) none none = (none, some (23 / 10)) ∧
    Idealista.detailCoords (some ("39.5", "x")) none none = (some (79 / 2), none) ∧
    SpainRealEstate.parseDetailCoords (some ("41.5", "2.2.2")) none =
      ⟨some (83 / 2), none⟩ := by
  refine ⟨?_, ?_, ?_⟩ <;> with_unfolding_all decide

/-! ## Claim C6: retry policy -/

/-- C6 (counterexample): for the spain source a 429 response is not
retried — `_fetch_page` raises the typed fetch error after the very first
attempt, although 429 is in the claimed shared retryable set. -/
theorem spain_429_not_retried_cex :
    SpainRealEstate.fetchPage 3 (fun _ => (429, "body")) (Except.ok "browser") =
      (Except.error 429, 1) := rfl

theorem fetchRetryGo_attempts (responses : Nat → Except Nat String) :
    ∀ (remaining attempt : Nat),
      (Idealista.fetchRetryGo responses remaining attempt).2 ≤ attempt + remaining + 1 := by
  intro remaining
  induction remaining with
  | zero =>
    intro attempt
    rcases h : responses attempt with b | s <;>
      simp [Idealista.fetchRetryGo, h]
  | succ r ih =>
    intro attempt
    rcases h : responses attempt with e | b
    · simp only [Idealista.fetchRetryGo, h]
      split
      · exact le_trans (ih (attempt + 1)) (by omega)
      · omega
    · simp only [Idealista.fetchRetryGo, h]
      omega

/-- C6 (amended): the idealista fetches treat exactly \x7b403, 429, 503\x7d as
retryable, stop after three attempts, and raise any non-retryable status
immediately; the spain `_fetch_page` retries only 403 (cooldown then retry,
falling back to the browser after `MAX_RETRIES` consecutive 403s) and raises
the typed fetch error immediately, without retry, for every other status of
400 or more — including 429 and 503. -/
theorem retry_policy :
    (∀ st, Idealista.is_retryable st = true ↔ (st = 403 ∨ st = 429 ∨ st = 503)) ∧
    (∀ (responses : Nat → Except Nat String) (st : Nat),
      Idealista.is_retryable st = false →
      responses 0 = Except.error st →
      Idealista.fetchWithRetry responses = (Except.error st, 1)) ∧
    (∀ responses, (Idealista.fetchWithRetry responses).2 ≤ 3) ∧
    (∀ (responses : Nat → Except Nat String) (st0 st1 st2 : Nat),
      responses 0 = Except.error st0 → Idealista.is_retryable st0 = true →
      responses 1 = Except.error st1 → Idealista.is_retryable st1 = true →
      responses 2 = Except.error st2 →
      Idealista.fetchWithRetry responses = (Except.error st2, 3)) ∧
    (∀ (responses : Nat → Nat × String) (browser : Except Nat String)
        (st : Nat) (body : String),
      responses 0 = (st, body) → 400 ≤ st → st ≠ 403 →
      SpainRealEstate.fetchPage 3 responses browser = (Except.error st, 1)) ∧
    (∀ (responses : Nat → Nat × String) (browser : Except Nat String),
      (responses 0).1 = 403 → (responses 1).1 = 403 → (responses 2).1 = 403 →
      SpainRealEstate.fetchPage 3 responses browser = (browser, 3)) := by
  refine ⟨?_, ?_, ?_, ?_, ?_, ?_⟩
  · intro st
    simp [Idealista.is_retryable, or_assoc]
  · intro responses st h1 h2
    simp [Idealista.fetchWithRetry, Idealista.fetchRetryGo, h2, h1]
  · intro responses
    exact le_trans (fetchRetryGo_attempts responses 2 0) (by omega)
  · intro responses st0 st1 st2 h0 hr0 h1 hr1 h2
    simp [Idealista.fetchWithRetry, Idealista.fetchRetryGo, h0, hr0, h1, hr1, h2]
  · intro responses browser st body h0 h4 h403
    simp [SpainRealEstate.fetchPage, SpainRealEstate.fetchPage.go, h0, h403, h4]
  · intro responses browser h0 h1 h2
    simp [SpainRealEstate.fetchPage, SpainRealEstate.fetchPage.go, h0, h1, h2]

/-- Witness for C6: a 500 propagates immediately on idealista; a 503
propagates immediately on spain (showing the per-source difference); three
403s on spain reach the browser fallback. -/
theorem retry_policy_witness :
    Idealista.fetchWithRetry (fun _ => Except.error 500) = (Except.error 500, 1) ∧
    SpainRealEstate.fetchPage 3 (fun _ => (503, "x")) (Except.ok "b") =
      (Except.error 503, 1) ∧
    SpainRealEstate.fetchPage 3 (fun _ => (403, "x")) (Except.error 999) =
      (Except.error 999, 3) :=
  ⟨retry_policy.2.1 _ 500 (by decide) rfl,
   retry_policy.2.2.2.2.1 _ _ 503 "x" rfl (by decide) (by decide),
   retry_policy.2.2.2.2.2 _ _ rfl rfl rfl⟩

/-! ## Claim C1: the enrichment merge fills gaps -/

theorem specsHasKey_false_find?_none (d : List (String × String)) (k : String)
    (h : specsHasKey d k = false) : d.find? (fun kv => kv.1 == k) = none := by
  rw [List.find?_eq_none]
  intro kv hkv hbeq
  unfold specsHasKey at h
  rw [List.any_eq_false] at h
  exact absurd hbeq (h kv hkv)

theorem specsGet_append_left (d tail : List (String × String)) (k : String)
    (h : specsHasKey d k = true) :
    specsGet (d ++ tail) k = specsGet d k := by
  unfold specsGet
  rw [List.find?_append]
  have hsome : (d.find? (fun kv => kv.1 == k)).isSome := by
    rw [List.find?_isSome]
    simpa [specsHasKey, List.any_eq_true] using h
  rcases Option.isSome_iff_exists.mp hsome with ⟨v, hv⟩
  rw [hv]
  rfl

theorem specsHasKey_append (d : List (String × String)) (kv : String × String)
    (k : String) :
    specsHasKey (d ++ [kv]) k = (specsHasKey d k || kv.1 == k) := by
  simp [specsHasKey]

theorem specsFillMissing_cons (base : List (String × String))
    (kv : String × String) (add : List (String × String)) :
    specsFillMissing base (kv :: add) =
      specsFillMissing (if specsHasKey base kv.1 then base else base ++ [kv]) add := rfl

theorem specsFillMissing_preserves (add : List (String × String)) :
    ∀ (base : List (String × String)) (k : String),
      specsHasKey base k = true →
      specsGet (specsFillMissing base add) k = specsGet base k ∧
      specsHasKey (specsFillMissing base add) k = true := by
  induction add with
  | nil =>
    intro base k h
    exact ⟨rfl, h⟩
  | cons kv add ih =>
    intro base k h
    rw [specsFillMissing_cons]
    by_cases hc : specsHasKey base kv.1 = true
    · rw [if_pos hc]
      exact ih base k h
    · rw [if_neg hc]
      have h1 : specsHasKey (base ++ [kv]) k = true := by
        rw [specsHasKey_append, h, Bool.true_or]
      rcases ih (base ++ [kv]) k h1 with ⟨hg, hh⟩
      exact ⟨hg.trans (specsGet_append_left _ _ _ h), hh⟩

theorem specsFillMissing_fills (add : List (String × String)) :
    ∀ (base : List (String × String)) (k : String),
      specsHasKey base k = false → specsHasKey add k = true →
      specsGet (specsFillMissing base add) k = specsGet add k := by
  induction add with
  | nil =>
    intro base k _ ha
    simp [specsHasKey] at ha
  | cons kv add ih =>
    intro base k hb ha
    by_cases hk : kv.1 = k
    · have hbk : specsHasKey base kv.1 = false := hk ▸ hb
      rw [specsFillMissing_cons]
      rw [if_neg (by simp [hbk])]
      have h1 : specsHasKey (base ++ [kv]) k = true := by
        rw [specsHasKey_append, hb, Bool.false_or]
        simp [hk]
      have h2 := (specsFillMissing_preserves add (base ++ [kv]) k h1).1
      have h3 : specsGet (base ++ [kv]) k = some kv.2 := by
        unfold specsGet
        rw [List.find?_append, specsHasKey_false_find?_none base k hb]
        simp [hk]
      have h4 : specsGet (kv :: add) k = some kv.2 := by
        unfold specsGet
        rw [List.find?_cons_of_pos _ (by simp [hk])]
        rfl
      rw [h4]
      exact (h2.trans h3 : _)
    · have ha2 : specsHasKey add k = true := by
        simp only [specsHasKey, List.any_cons, Bool.or_eq_true] at ha
        rcases ha with h | h
        · exact absurd (by simpa using h) hk
        · simpa [specsHasKey] using h
      have hrhs : specsGet (kv :: add) k = specsGet add k := by
        unfold specsGet
        rw [List.find?_cons_of_neg _ (by simp [hk])]
      rw [hrhs]
      rw [specsFillMissing_cons]
      by_cases hc : specsHasKey base kv.1 = true
      · rw [if_pos hc]
        exact ih base k hb ha2
      · rw [if_neg hc]
        refine ih (base ++ [kv]) k ?_ ha2
        rw [specsHasKey_append, hb, Bool.false_or]
        simp [hk]

theorem enrichMerge_description (prop detail : Models.Property) :
    (Idealista.enrichMerge prop detail).description =
      (if ¬ truthyOptStr prop.description ∧ truthyOptStr detail.description
       then detail.description else prop.description) := by
  unfold Idealista.enrichMerge
  dsimp only
  simp only [apply_ite Models.Property.description, apply_ite Models.Property.neighborhood,
    apply_ite Models.Property.postal_code, apply_ite Models.Property.latitude,
    apply_ite Models.Property.images, apply_ite Models.Property.specs, ite_self]

theorem enrichMerge_neighborhood (prop detail : Models.Property) :
    (Idealista.enrichMerge prop detail).neighborhood =
      (if ¬ truthyOptStr prop.neighborhood ∧ truthyOptStr detail.neighborhood
       then detail.neighborhood else prop.neighborhood) := by
  unfold Idealista.enrichMerge
  dsimp only
  simp only [apply_ite Models.Property.description, apply_ite Models.Property.neighborhood,
    apply_ite Models.Property.postal_code, apply_ite Models.Property.latitude,
    apply_ite Models.Property.images, apply_ite Models.Property.specs, ite_self]

theorem enrichMerge_postal_code (prop detail : Models.Property) :
    (Idealista.enrichMerge prop detail).postal_code =
      (if ¬ truthyOptStr prop.postal_code ∧ truthyOptStr detail.postal_code
       then detail.postal_code else prop.postal_code) := by
  unfold Idealista.enrichMerge
  dsimp only
  simp only [apply_ite Models.Property.description, apply_ite Models.Property.neighborhood,
    apply_ite Models.Property.postal_code, apply_ite Models.Property.latitude,
    apply_ite Models.Property.images, apply_ite Models.Property.specs, ite_self]

theorem enrichMerge_latitude (prop detail : Models.Property) :
    (Idealista.enrichMerge prop detail).latitude =
      (if ¬ truthyOptRat prop.latitude ∧ truthyOptRat detail.latitude
       then detail.latitude else prop.latitude) := by
  unfold Idealista.enrichMerge
  dsimp only
  simp only [apply_ite Models.Property.description, apply_ite Models.Property.neighborhood,
    apply_ite Models.Property.postal_code, apply_ite Models.Property.latitude,
    apply_ite Models.Property.images, apply_ite Models.Property.specs, ite_self]

theorem enrichMerge_images (prop detail : Models.Property) :
    (Idealista.enrichMerge prop detail).images =
      (if prop.images.length < detail.images.length
       then detail.images else prop.images) := by
  unfold Idealista.enrichMerge
  dsimp only
  simp only [apply_ite Models.Property.description, apply_ite Models.Property.neighborhood,
    apply_ite Models.Property.postal_code, apply_ite Models.Property.latitude,
    apply_ite Models.Property.images, apply_ite Models.Property.specs, ite_self]

theorem enrichMerge_specs (prop detail : Models.Property) :
    (Idealista.enrichMerge prop detail).specs =
      specsFillMissing prop.specs detail.specs := by
  unfold Idealista.enrichMerge
  dsimp only
  simp only [apply_ite Models.Property.description, apply_ite Models.Property.neighborhood,
    apply_ite Models.Property.postal_code, apply_ite Models.Property.latitude,
    apply_ite Models.Property.images, apply_ite Models.Property.specs, ite_self]

/-- C1: the per-record enrichment merge only fills gaps: each of
`description`, `neighborhood`, `postal_code`, `latitude` is kept whenever the
base holds a (Python-)truthy value and taken from the detail fragment exactly
when the base slot is falsy and the fragment's is truthy; existing specs
entries are never overwritten while missing keys are taken from the fragment;
and `images` is replaced wholesale exactly when the fragment's list is
strictly larger. -/
theorem enrich_merge_fills_gaps (prop detail : Models.Property) :
    ((truthyOptStr prop.description = true →
        (Idealista.enrichMerge prop detail).description = prop.description) ∧
     (truthyOptStr prop.description = false → truthyOptStr detail.description = true →
        (Idealista.enrichMerge prop detail).description = detail.description)) ∧
    ((truthyOptStr prop.neighborhood = true →
        (Idealista.enrichMerge prop detail).neighborhood = prop.neighborhood) ∧
     (truthyOptStr prop.neighborhood = false → truthyOptStr detail.neighborhood = true →
        (Idealista.enrichMerge prop detail).neighborhood = detail.neighborhood)) ∧
    ((truthyOptStr prop.postal_code = true →
        (Idealista.enrichMerge prop detail).postal_code = prop.postal_code) ∧
     (truthyOptStr prop.postal_code = false → truthyOptStr detail.postal_code = true →
        (Idealista.enrichMerge prop detail).postal_code = detail.postal_code)) ∧
    ((truthyOptRat prop.latitude = true →
        (Idealista.enrichMerge prop detail).latitude = prop.latitude) ∧
     (truthyOptRat prop.latitude = false → truthyOptRat detail.latitude = true →
        (Idealista.enrichMerge prop detail).latitude = detail.latitude)) ∧
    ((∀ k, specsHasKey prop.specs k = true →
        specsGet (Idealista.enrichMerge prop detail).specs k = specsGet prop.specs k) ∧
     (∀ k, specsHasKey prop.specs k = false → specsHasKey detail.specs k = true →
        specsGet (Idealista.enrichMerge prop detail).specs k = specsGet detail.specs k)) ∧
    (Idealista.enrichMerge prop detail).images =
      (if prop.images.length < detail.images.length
       then detail.images else prop.images) := by
  refine ⟨⟨?_, ?_⟩, ⟨?_, ?_⟩, ⟨?_, ?_⟩, ⟨?_, ?_⟩, ⟨?_, ?_⟩, enrichMerge_images prop detail⟩
  · intro h
    simp [enrichMerge_description, h]
  · intro h1 h2
    simp [enrichMerge_description, h1, h2]
  · intro h
    simp [enrichMerge_neighborhood, h]
  · intro h1 h2
    simp [enrichMerge_neighborhood, h1, h2]
  · intro h
    simp [enrichMerge_postal_code, h]
  · intro h1 h2
    simp [enrichMerge_postal_code, h1, h2]
  · intro h
    simp [enrichMerge_latitude, h]
  · intro h1 h2
    simp [enrichMerge_latitude, h1, h2]
  · intro k h
    rw [enrichMerge_specs]
    exact (specsFillMissing_preserves detail.specs prop.specs k h).1
  · intro k h1 h2
    rw [enrichMerge_specs]
    exact specsFillMissing_fills detail.specs prop.specs k h1 h2

/-- Witness for C1 at a concrete base record and detail fragment: the truthy
description survives, the missing neighborhood is filled, the existing specs
entry is kept and the missing one added, and the larger image list replaces
the smaller one. -/
theorem enrich_merge_fills_gaps_witness :
    (Idealista.enrichMerge
        { Models.emptyProperty with
            source_id := "1", title := "t", description := some "keep",
            images := ["thumb"], specs := [("k", "v")] }
        { Models.emptyProperty with
            source_id := "1", title := "Casa bonita", description := some "new",
            neighborhood := some "Ruzafa", images := ["a", "b"],
            specs := [("k", "w"), ("m", "n")] }).description = some "keep" ∧
    (Idealista.enrichMerge
        { Models.emptyProperty with
            source_id := "1", title := "t", description := some "keep",
            images := ["thumb"], specs := [("k", "v")] }
        { Models.emptyProperty with
            source_id := "1", title := "Casa bonita", description := some "new",
            neighborhood := some "Ruzafa", images := ["a", "b"],
            specs := [("k", "w"), ("m", "n")] }).neighborhood = some "Ruzafa" ∧
    specsGet (Idealista.enrichMerge
        { Models.emptyProperty with
            source_id := "1", title := "t", description := some "keep",
            images := ["thumb"], specs := [("k", "v")] }
        { Models.emptyProperty with
            source_id := "1", title := "Casa bonita", description := some "new",
            neighborhood := some "Ruzafa", images := ["a", "b"],
            specs := [("k", "w"), ("m", "n")] }).specs "k" = some "v" := by
  refine ⟨(enrich_merge_fills_gaps _ _).1.1 (by decide),
          (enrich_merge_fills_gaps _ _).2.1.2 (by decide) (by decide),
          ?_⟩
  have h := (enrich_merge_fills_gaps
    { Models.emptyProperty with
        source_id := "1", title := "t", description := some "keep",
        images := ["thumb"], specs := [("k", "v")] }
    { Models.emptyProperty with
        source_id := "1", title := "Casa bonita", description := some "new",
        neighborhood := some "Ruzafa", images := ["a", "b"],
        specs := [("k", "w"), ("m", "n")] }).2.2.2.2.1.1 "k" (by decide)
  rw [h]
  decide

/-! ## Claim C5: the resumable enrich pass -/

theorem enrichGo_fetched (e : Models.Property → Models.Property) :
    ∀ (todo done : List Models.Property),
      (Cli.enrichGo e done todo).fetched =
        (todo.filter (fun p => !p.enriched)).map (fun p => p.source_id) := by
  intro todo
  induction todo with
  | nil => intro done; rfl
  | cons p rest ih =>
    intro done
    unfold Cli.enrichGo
    split
    · rename_i h
      rw [ih (done ++ [p])]
      simp [List.filter_cons, h]
    · rename_i h
      have h2 : p.enriched = false := by
        cases hp : p.enriched
        · rfl
        · exact absurd hp h
      simp [List.filter_cons, h2, ih (done ++ [e p])]

theorem enrichGo_snaps_count (e : Models.Property → Models.Property) :
    ∀ (todo done : List Models.Property),
      (Cli.enrichGo e done todo).snaps.length =
        (todo.filter (fun p => !p.enriched)).length := by
  intro todo
  induction todo with
  | nil => intro done; rfl
  | cons p rest ih =>
    intro done
    unfold Cli.enrichGo
    split
    · rename_i h
      rw [ih (done ++ [p])]
      simp [List.filter_cons, h]
    · rename_i h
      have h2 : p.enriched = false := by
        cases hp : p.enriched
        · rfl
        · exact absurd hp h
      simp [List.filter_cons, h2, ih (done ++ [e p])]

theorem enrichGo_snaps_length (e : Models.Property → Models.Property) :
    ∀ (todo done : List Models.Property) (s : List Models.Property),
      s ∈ (Cli.enrichGo e done todo).snaps →
      s.length = done.length + todo.length := by
  intro todo
  induction todo with
  | nil =>
    intro done s h
    simp [Cli.enrichGo] at h
  | cons p rest ih =>
    intro done s h
    unfold Cli.enrichGo at h
    split at h
    · have := ih (done ++ [p]) s h
      simp at this ⊢
      omega
    · simp only [List.mem_cons] at h
      rcases h with h | h
      · subst h
        simp
      · have := ih (done ++ [e p]) s h
        simp at this ⊢
        omega

theorem countDiff_self : ∀ (t : List Models.Property), Cli.countDiff t t = 0 := by
  intro t
  induction t with
  | nil => rfl
  | cons a t ih => simp [Cli.countDiff, ih]

theorem countDiff_middle (a b : Models.Property) (t : List Models.Property) :
    ∀ (d : List Models.Property), Cli.countDiff (d ++ a :: t) (d ++ b :: t) ≤ 1 := by
  intro d
  induction d with
  | nil =>
    simp only [List.nil_append, Cli.countDiff, countDiff_self]
    split <;> omega
  | cons x d ih =>
    simpa [Cli.countDiff] using ih

theorem enrichGo_chain (e : Models.Property → Models.Property) :
    ∀ (todo done : List Models.Property),
      Cli.chainLe1 ((done ++ todo) :: (Cli.enrichGo e done todo).snaps) = true := by
  intro todo
  induction todo with
  | nil => intro done; rfl
  | cons p rest ih =>
    intro done
    unfold Cli.enrichGo
    split
    · have h := ih (done ++ [p])
      rw [List.append_assoc] at h
      simpa using h
    · have h := ih (done ++ [e p])
      rw [List.append_assoc] at h
      simp only [List.singleton_append] at h
      show Cli.chainLe1 _ = true
      unfold Cli.chainLe1
      rw [Bool.and_eq_true, decide_eq_true_eq]
      exact ⟨countDiff_middle p (e p) rest done, h⟩

/-- C5: in the resumable enrich pass, a detail fetch happens exactly for the
records whose `enriched` flag is false (so a restart on a saved file enriches
exactly the not-yet-enriched records and already-enriched records are never
re-fetched); the entire collection is saved once after every processed
record (as many saves as unenriched records, each snapshot of full length);
and the on-disk history — the original file followed by the successive saved
snapshots — changes in at most one position per step, so an interruption
loses at most one record's work. -/
theorem enrich_resumable (e : Models.Property → Models.Property)
    (props : List Models.Property) :
    (Cli.enrichRun e props).fetched =
      (props.filter (fun p => !p.enriched)).map (fun p => p.source_id) ∧
    (Cli.enrichRun e props).snaps.length =
      (props.filter (fun p => !p.enriched)).length ∧
    (∀ s ∈ (Cli.enrichRun e props).snaps, s.length = props.length) ∧
    Cli.chainLe1 (props :: (Cli.enrichRun e props).snaps) = true := by
  refine ⟨enrichGo_fetched e props [], enrichGo_snaps_count e props [], ?_, ?_⟩
  · intro s h
    simpa using enrichGo_snaps_length e props [] s h
  · simpa using enrichGo_chain e props []

/-- Witness for C5 on a two-record file whose first record is already
enriched: only the second record is fetched, its single snapshot has the
file's length. -/
theorem enrich_resumable_witness :
    (Cli.enrichRun (fun p => { p with enriched := true })
      [{ Models.emptyProperty with source_id := "a", title := "t", enriched := true },
       { Models.emptyProperty with source_id := "b", title := "u" }]).fetched = ["b"] ∧
    [{ Models.emptyProperty with source_id := "a", title := "t", enriched := true },
     ({ Models.emptyProperty with source_id := "b", title := "u", enriched := true }
       : Models.Property)].length = 2 := by
  constructor
  · rw [(enrich_resumable (fun p => { p with enriched := true }) _).1]
    decide
  · exact (enrich_resumable (fun p => { p with enriched := true })
      [{ Models.emptyProperty with source_id := "a", title := "t", enriched := true },
       { Models.emptyProperty with source_id := "b", title := "u" }]).2.2.1 _ (by decide)

/-! ## Claim C7: listing loops and de-duplication -/

/-- C7 (counterexample): the idealista HTML listing loop does not stop at a
page yielding zero items — with page 1 empty and the site reporting two
pages, page 2 is still fetched (fetched pages `[1, 2]`) and its listing
returned. -/
theorem ida_empty_page_does_not_stop_cex :
    Idealista.scrape_html_pages
      (fun p => if p = 1 then some ([], 2) else some (["a"], 2))
      (fun _ => true) 2 = (["a"], [1, 2]) := by decide

theorem firstOcc_step_mem (acc : List String) (s x : String) :
    (x ∈ if s ∈ acc then acc else acc ++ [s]) ↔ x ∈ acc ∨ x = s := by
  split
  · rename_i h
    constructor
    · exact Or.inl
    · rintro (hx | rfl)
      · exact hx
      · exact h
  · simp

theorem foldl_firstOcc_mem :
    ∀ (l acc : List String) (x : String),
      (x ∈ l.foldl (fun acc s => if s ∈ acc then acc else acc ++ [s]) acc) ↔
        x ∈ acc ∨ x ∈ l := by
  intro l
  induction l with
  | nil => simp
  | cons s l ih =>
    intro acc x
    rw [List.foldl_cons, ih, firstOcc_step_mem]
    simp only [List.mem_cons]
    tauto

theorem foldl_firstOcc_nodup :
    ∀ (l acc : List String), acc.Nodup →
      (l.foldl (fun acc s => if s ∈ acc then acc else acc ++ [s]) acc).Nodup := by
  intro l
  induction l with
  | nil => intro acc h; exact h
  | cons s l ih =>
    intro acc h
    rw [List.foldl_cons]
    refine ih _ ?_
    split
    · exact h
    · rename_i hs
      rw [List.nodup_append]
      refine ⟨h, List.nodup_singleton s, ?_⟩
      intro a ha hae
      rw [List.mem_singleton] at hae
      exact hs (hae ▸ ha)

theorem firstOcc_mem (l : List String) (x : String) : x ∈ firstOcc l ↔ x ∈ l := by
  unfold firstOcc
  rw [foldl_firstOcc_mem]
  simp

theorem firstOcc_nodup (l : List String) : (firstOcc l).Nodup :=
  foldl_firstOcc_nodup l [] (List.nodup_nil)

theorem firstOcc_append (l₁ l₂ : List String) :
    firstOcc (l₁ ++ l₂) =
      l₂.foldl (fun acc s => if s ∈ acc then acc else acc ++ [s]) (firstOcc l₁) := by
  unfold firstOcc
  rw [List.foldl_append]

theorem procItems_lockstep :
    ∀ (items seen : List String),
      SpainRealEstate.procItems seen seen items =
        (items.foldl (fun acc s => if s ∈ acc then acc else acc ++ [s]) seen,
         items.foldl (fun acc s => if s ∈ acc then acc else acc ++ [s]) seen) := by
  intro items
  induction items with
  | nil => intro seen; rfl
  | cons sid rest ih =>
    intro seen
    simp only [SpainRealEstate.procItems, List.foldl_cons]
    by_cases h : sid ∈ seen
    · rw [if_pos h, if_pos h]
      exact ih seen
    · rw [if_neg h, if_neg h]
      exact ih (seen ++ [sid])

theorem sreLoop_dedup (oracle : Nat → Option SpainRealEstate.SrePage)
    (tab : String) (maxPages : Nat) :
    ∀ (fuel bound page : Nat) (st : SpainRealEstate.SreState),
      st.seen = st.acc → st.acc = firstOcc st.stream →
      ((SpainRealEstate.sreLoop oracle tab maxPages bound page fuel st).seen =
        (SpainRealEstate.sreLoop oracle tab maxPages bound page fuel st).acc ∧
       (SpainRealEstate.sreLoop oracle tab maxPages bound page fuel st).acc =
        firstOcc (SpainRealEstate.sreLoop oracle tab maxPages bound page fuel st).stream) := by
  intro fuel
  induction fuel with
  | zero =>
    intro bound page st h1 h2
    exact ⟨h1, h2⟩
  | succ fuel ih =>
    intro bound page st h1 h2
    simp only [SpainRealEstate.sreLoop]
    split
    · exact ⟨h1, h2⟩
    · split
      · exact ⟨h1, h2⟩
      · rename_i pg hpg
        split
        · exact ⟨h1, h2⟩
        · rw [h1, procItems_lockstep]
          refine ih _ _ _ ?_ ?_
          · rfl
          · show List.foldl _ st.acc pg.items = firstOcc (st.stream ++ pg.items)
            rw [firstOcc_append, ← h2]

theorem scrape_dedup (oracle : String → Nat → Option SpainRealEstate.SrePage)
    (tabs : List String) (maxPages : Nat) :
    (SpainRealEstate.scrape oracle tabs maxPages).seen =
      (SpainRealEstate.scrape oracle tabs maxPages).acc ∧
    (SpainRealEstate.scrape oracle tabs maxPages).acc =
      firstOcc (SpainRealEstate.scrape oracle tabs maxPages).stream := by
  unfold SpainRealEstate.scrape
  have main : ∀ (ts : List String) (st : SpainRealEstate.SreState),
      st.seen = st.acc → st.acc = firstOcc st.stream →
      ((ts.foldl (fun st tab =>
          SpainRealEstate.sreLoop (oracle tab) tab maxPages maxPages 1 (maxPages + 1) st)
          st).seen =
        (ts.foldl (fun st tab =>
          SpainRealEstate.sreLoop (oracle tab) tab maxPages maxPages 1 (maxPages + 1) st)
          st).acc ∧
       (ts.foldl (fun st tab =>
          SpainRealEstate.sreLoop (oracle tab) tab maxPages maxPages 1 (maxPages + 1) st)
          st).acc =
        firstOcc ((ts.foldl (fun st tab =>
          SpainRealEstate.sreLoop (oracle tab) tab maxPages maxPages 1 (maxPages + 1) st)
          st).stream)) := by
    intro ts
    induction ts with
    | nil => intro st h1 h2; exact ⟨h1, h2⟩
    | cons t ts ih =>
      intro st h1 h2
      rw [List.foldl_cons]
      rcases sreLoop_dedup (oracle t) t maxPages (maxPages + 1) maxPages 1 st h1 h2 with ⟨g1, g2⟩
      exact ih _ g1 g2
  exact main tabs ⟨[], [], [], []⟩ rfl rfl

theorem sreLoop_pages (oracle : Nat → Option SpainRealEstate.SrePage)
    (tab : String) (maxPages : Nat) :
    ∀ (fuel bound page : Nat) (st : SpainRealEstate.SreState),
      (SpainRealEstate.sreLoop oracle tab maxPages bound page fuel st).pages =
        st.pages ++
          (SpainRealEstate.srePages oracle maxPages bound page fuel).map
            (fun p => (tab, p)) := by
  intro fuel
  induction fuel with
  | zero =>
    intro bound page st
    simp [SpainRealEstate.sreLoop, SpainRealEstate.srePages]
  | succ fuel ih =>
    intro bound page st
    simp only [SpainRealEstate.sreLoop, SpainRealEstate.srePages]
    split
    · simp
    · split
      · simp
      · rename_i pg hpg
        split
        · simp
        · rw [ih]
          simp

theorem srePages_tail_mem (pgf : Nat → SpainRealEstate.SrePage) (maxPages : Nat) :
    ∀ (fuel start bound p : Nat), 2 ≤ start →
      min maxPages bound + 2 ≤ start + fuel →
      (p ∈ SpainRealEstate.srePages (fun q => some (pgf q)) maxPages bound start fuel ↔
        (start ≤ p ∧ p ≤ min maxPages bound ∧
          ∀ q, start ≤ q → q < p → (pgf q).items ≠ [])) := by
  intro fuel
  induction fuel with
  | zero =>
    intro start bound p h2 hf
    simp only [SpainRealEstate.srePages, List.not_mem_nil, false_iff]
    rintro ⟨hsp, hpm, -⟩
    omega
  | succ fuel ih =>
    intro start bound p h2 hf
    simp only [SpainRealEstate.srePages]
    split
    · rename_i hlt
      simp only [List.not_mem_nil, false_iff]
      rintro ⟨hsp, hpm, -⟩
      omega
    · rename_i hnlt
      split
      · rename_i hempty
        simp only [List.mem_singleton]
        constructor
        · rintro rfl
          refine ⟨le_refl _, by omega, ?_⟩
          intro q hq1 hq2
          omega
        · rintro ⟨hsp, hpm, hall⟩
          rcases Nat.eq_or_lt_of_le hsp with h | h
          · exact h.symm
          · exact absurd hempty (hall start (le_refl _) h)
      · rename_i hnonempty
        rw [if_neg (by omega : ¬ start = 1)]
        rw [List.mem_cons, ih (start + 1) bound p (by omega) (by omega)]
        constructor
        · rintro (rfl | ⟨hsp, hpm, hall⟩)
          · exact ⟨le_refl _, by omega, fun q hq1 hq2 => absurd hq2 (by omega)⟩
          · refine ⟨by omega, hpm, ?_⟩
            intro q hq1 hq2
            by_cases hq : q = start
            · subst hq
              exact hnonempty
            · exact hall q (by omega) hq2
        · rintro ⟨hsp, hpm, hall⟩
          by_cases hps : p = start
          · exact Or.inl hps
          · right
            refine ⟨by omega, hpm, ?_⟩
            intro q hq1 hq2
            exact hall q (by omega) hq2

theorem srePages_full_mem (pgf : Nat → SpainRealEstate.SrePage) (maxPages p : Nat) :
    p ∈ SpainRealEstate.srePages (fun q => some (pgf q)) maxPages maxPages 1
        (maxPages + 1) ↔
      (1 ≤ p ∧ p ≤ maxPages ∧
        (p = 1 ∨ (p ≤ SpainRealEstate.refinedBound (pgf 1) ∧
          ∀ q, 1 ≤ q → q < p → (pgf q).items ≠ []))) := by
  cases maxPages with
  | zero =>
    simp only [SpainRealEstate.srePages]
    rw [if_pos (by omega)]
    simp only [List.not_mem_nil, false_iff]
    rintro ⟨h1, h0, -⟩
    omega
  | succ m =>
    rw [SpainRealEstate.srePages]
    rw [if_neg (by omega : ¬ min (m + 1) (m + 1) < 1)]
    dsimp only
    split
    · rename_i hempty
      simp only [List.mem_singleton]
      constructor
      · rintro rfl
        exact ⟨le_refl _, by omega, Or.inl rfl⟩
      · rintro ⟨h1, hm, hor⟩
        rcases hor with rfl | ⟨hb, hall⟩
        · rfl
        · rcases Nat.eq_or_lt_of_le h1 with h | h
          · exact h.symm
          · exact absurd hempty (hall 1 (le_refl _) h)
    · rename_i hnonempty
      rw [if_pos rfl]
      rw [List.mem_cons,
        srePages_tail_mem pgf (m + 1) (m + 1) 2
          (SpainRealEstate.refinedBound (pgf 1)) p (by omega) (by omega)]
      constructor
      · rintro (rfl | ⟨hsp, hpm, hall⟩)
        · exact ⟨le_refl _, by omega, Or.inl rfl⟩
        · refine ⟨by omega, by omega, Or.inr ⟨by omega, ?_⟩⟩
          intro q hq1 hq2
          by_cases hq : q = 1
          · subst hq
            exact hnonempty
          · exact hall q (by omega) hq2
      · rintro ⟨h1, hm, hor⟩
        rcases hor with rfl | ⟨hb, hall⟩
        · exact Or.inl rfl
        · by_cases hp1 : p = 1
          · exact Or.inl hp1
          · right
            refine ⟨by omega, by omega, ?_⟩
            intro q hq1 hq2
            exact hall q (by omega) hq2

theorem idaGo_pages_tail (pd : Nat → List String × Nat) :
    ∀ (n p total : Nat) (ids : List String) (pages : List Nat), 2 ≤ p →
      (Idealista.idaGo (fun q => some (pd q)) (List.range' p n) total ids pages).2 =
        pages ++ (List.range' p n).takeWhile (fun q => decide (q ≤ total)) := by
  intro n
  induction n with
  | zero =>
    intro p total ids pages h2
    simp [Idealista.idaGo]
  | succ n ih =>
    intro p total ids pages h2
    rw [List.range'_succ]
    simp only [Idealista.idaGo, List.takeWhile_cons]
    by_cases hlt : total < p
    · rw [if_pos ⟨hlt, by omega⟩]
      rw [decide_eq_false (by omega : ¬ p ≤ total)]
      simp
    · rw [if_neg (by omega)]
      rw [if_neg (by omega : ¬ p = 1)]
      rw [ih (p + 1) total _ _ (by omega)]
      rw [decide_eq_true (by omega : p ≤ total)]
      simp

theorem ida_pages (pd : Nat → List String × Nat) (detailOk : String → Bool)
    (maxPages : Nat) (h : 1 ≤ maxPages) :
    (Idealista.scrape_html_pages (fun q => some (pd q)) detailOk maxPages).2 =
      1 :: (List.range' 2 (maxPages - 1)).takeWhile
        (fun q => decide (q ≤ (pd 1).2)) := by
  unfold Idealista.scrape_html_pages
  dsimp only
  obtain ⟨m, rfl⟩ : ∃ m, maxPages = m + 1 := ⟨maxPages - 1, by omega⟩
  rw [List.range'_succ]
  simp only [Idealista.idaGo]
  rw [if_neg (by omega)]
  simp only [if_true]
  rw [show (1 : Nat) + 1 = 2 from rfl]
  rw [idaGo_pages_tail pd m 2 (pd 1).2 _ _ (by omega)]
  simp

theorem ida_result_nodup (oracle : Nat → Option (List String × Nat))
    (detailOk : String → Bool) (maxPages : Nat) :
    (Idealista.scrape_html_pages oracle detailOk maxPages).1.Nodup := by
  unfold Idealista.scrape_html_pages
  exact (firstOcc_nodup _).filter _

/-- C7 (amended): the spain listing loop fetches, per tab, exactly the
contiguous pages from 1 up to the first of: a page yielding zero items
(which is itself fetched, then stops the loop), the caller's max-page bound,
or the page-1-derived total-page bound (`ceil(total/24)` or the raw
pagination maximum); the idealista HTML fallback loop fetches pages 1 up to
the first of the max-page bound or the page-1-reported total — a zero-item
page does not stop it (see the counterexample).  Both runs return at most
one entry per source identifier: the spain accumulator is exactly the
first-occurrence de-duplication of the item stream it processed (shared
across tabs and pages, so every later occurrence is skipped), and the
idealista result list is duplicate-free. -/
theorem listing_stop_and_dedup :
    (∀ (pgf : Nat → SpainRealEstate.SrePage) (tab : String) (maxPages p : Nat),
      ((tab, p) ∈
        (SpainRealEstate.scrape (fun _ q => some (pgf q)) [tab] maxPages).pages ↔
        (1 ≤ p ∧ p ≤ maxPages ∧
          (p = 1 ∨ (p ≤ SpainRealEstate.refinedBound (pgf 1) ∧
            ∀ q, 1 ≤ q → q < p → (pgf q).items ≠ []))))) ∧
    (∀ (oracle : String → Nat → Option SpainRealEstate.SrePage)
        (tabs : List String) (maxPages : Nat),
      (SpainRealEstate.scrape oracle tabs maxPages).acc =
        firstOcc (SpainRealEstate.scrape oracle tabs maxPages).stream ∧
      (SpainRealEstate.scrape oracle tabs maxPages).acc.Nodup) ∧
    (∀ (l : List String) (x : String), x ∈ firstOcc l ↔ x ∈ l) ∧
    (∀ (pd : Nat → List String × Nat) (detailOk : String → Bool) (maxPages : Nat),
      1 ≤ maxPages →
      (Idealista.scrape_html_pages (fun q => some (pd q)) detailOk maxPages).2 =
        1 :: (List.range' 2 (maxPages - 1)).takeWhile
          (fun q => decide (q ≤ (pd 1).2))) ∧
    (∀ (oracle : Nat → Option (List String × Nat)) (detailOk : String → Bool)
        (maxPages : Nat),
      (Idealista.scrape_html_pages oracle detailOk maxPages).1.Nodup) := by
  refine ⟨?_, ?_, firstOcc_mem, ida_pages, ida_result_nodup⟩
  · intro pgf tab maxPages p
    unfold SpainRealEstate.scrape
    rw [List.foldl_cons, List.foldl_nil, sreLoop_pages]
    simp only [List.nil_append, List.mem_map, Prod.mk.injEq]
    constructor
    · rintro ⟨a, ha, -, rfl⟩
      exact (srePages_full_mem pgf maxPages a).mp ha
    · intro hp
      exact ⟨p, (srePages_full_mem pgf maxPages p).mpr hp, trivial, rfl⟩
  · intro oracle tabs maxPages
    rcases scrape_dedup oracle tabs maxPages with ⟨-, h2⟩
    exact ⟨h2, h2 ▸ firstOcc_nodup _⟩

/-- Witness for C7: a two-page idealista run with a three-page site report
fetches exactly pages 1 and 2. -/
theorem listing_stop_and_dedup_witness :
    (Idealista.scrape_html_pages (fun _ => some (["a"], 3)) (fun _ => true) 2).2 =
      [1, 2] :=
  (listing_stop_and_dedup.2.2.2.1 (fun _ => (["a"], 3)) (fun _ => true) 2
    (by decide)).trans (by decide)

end Mirascrape
